import Mathlib

/-!
Verification development for the RTLola runtime monitor.

Shallow embedding of the evaluation engine as found in the repository:
durations are modelled as their nanosecond counts (natural numbers), so the
helpers `dur_as_nanos` and `dur_from_nanos` of the missing `duration` module
become the identity and are left implicit.  Machine integers are modelled as
`Nat`/`Int` with explicit range conditions where they matter.  Rust panics
are modelled as the `error` branch of `Except`.
-/

set_option autoImplicit false

/-- Reference to a stream within the specification
(`StreamReference` in `frontend/src/ir.rs`). -/
inductive StreamReference where
  | InRef (ix : ℕ)
  | OutRef (ix : ℕ)
deriving DecidableEq, Repr

/-- Time-driven stream: a stream reference together with its extend rate
(`TimeDrivenStream` in `frontend/src/ir.rs`); the rate is a duration in
nanoseconds. -/
structure TimeDrivenStream where
  reference : StreamReference
  extend_rate : ℕ
deriving DecidableEq, Repr

/-- Deadline of the periodic schedule (`Deadline` in `common/src/schedule.rs`). -/
structure Deadline where
  pause : ℕ
  due : List StreamReference
deriving DecidableEq, Repr

/-- Periodic schedule (`Schedule` in `common/src/schedule.rs`). -/
structure Schedule where
  gcd : ℕ
  hyper_period : ℕ
  deadlines : List Deadline
deriving DecidableEq, Repr

/-- Modelled from the spec: `crate::math::gcd_all` (the `math` module is not
among the provided sources).  Spec P3: the result divides every element of
the list. -/
def gcd_all (rates : List ℕ) : ℕ := rates.foldr Nat.gcd 0

/-- Modelled from the spec: `crate::math::lcm_all` (the `math` module is not
among the provided sources).  Spec P3: the result is divisible by every
element of the list. -/
def lcm_all (rates : List ℕ) : ℕ := rates.foldr Nat.lcm 1

/-- Modelled from the spec: `crate::duration::divide_durations` (the
`duration` module is not among the provided sources).  Spec P4: rounding
division on durations; `b * result ≤ a` when rounding down, `b * result ≥ a`
when rounding up, and the two directions differ by at most one. -/
def divide_durations (a b : ℕ) (round_up : Bool) : ℕ :=
  if round_up && (a % b != 0) then a / b + 1 else a / b

/-- Maximal waiting time between checks for due deadlines
(`Schedule::find_extend_period`); the GCD of the rates in nanoseconds. -/
def Schedule.find_extend_period (rates : List ℕ) : ℕ := gcd_all rates

/-- Hyper period of the given rates (`Schedule::find_hyper_period`); the LCM
of the rates in nanoseconds. -/
def Schedule.find_hyper_period (rates : List ℕ) : ℕ := lcm_all rates

/-- One gcd-sized slot per interval up to the hyper period; each time-driven
stream is placed in the slot of its first firing
(`Schedule::build_extend_steps`). -/
def Schedule.build_extend_steps (time_driven : List TimeDrivenStream) (gcd hyper_period : ℕ) :
    List (List StreamReference) :=
  let num_steps := divide_durations hyper_period gcd false
  time_driven.foldl
    (fun steps s =>
      let ix := divide_durations s.extend_rate gcd false - 1
      steps.set ix (steps.getD ix [] ++ [s.reference]))
    (List.replicate num_steps [])

/-- Inner while-loop of `Schedule::apply_periodicity`: starting from
multiplier `k`, extend every cell of index `k * (ix + 1) - 1` within bounds
by `streams`, incrementing `k` until the index falls out of bounds.  The
loop runs at most `res.length + 1 - k` times because the cell index grows
with `k`; the `fuel` argument makes this bound explicit, so any fuel of at
least `res.length + 1 - k` realizes the loop exactly. -/
def Schedule.applyPerAux (streams : List StreamReference) (ix : ℕ) :
    ℕ → ℕ → List (List StreamReference) → List (List StreamReference)
  | 0, _, res => res
  | fuel + 1, k, res =>
    if k * (ix + 1) - 1 < res.length then
      Schedule.applyPerAux streams ix fuel (k + 1)
        (res.set (k * (ix + 1) - 1) (res.getD (k * (ix + 1) - 1) [] ++ streams))
    else res

/-- Periodic closure of the first-firing slots
(`Schedule::apply_periodicity`): streams sitting in the input cell of index
`ix` are added to every result cell of index `k * (ix + 1) - 1`, `k ≥ 1`,
within bounds. -/
def Schedule.apply_periodicity (steps : List (List StreamReference)) :
    List (List StreamReference) :=
  (steps.enum).foldl
    (fun res p =>
      if p.2.isEmpty then res else Schedule.applyPerAux p.2 p.1 (res.length + 1) 1 res)
    (List.replicate steps.length [])

/-- Folding step of `Schedule::condense_deadlines`: empty slots only bump the
counter of skipped gcd intervals; a nonempty slot becomes a deadline whose
pause covers the run of empty slots before it. -/
def Schedule.condenseStep (gcd : ℕ) (acc : ℕ × List Deadline) (step : List StreamReference) :
    ℕ × List Deadline :=
  if step.isEmpty then (acc.1 + 1, acc.2)
  else (0, acc.2 ++ [{ pause := (acc.1 + 1) * gcd, due := step }])

/-- Condensation of the slot array into deadlines
(`Schedule::condense_deadlines`); a trailing run of empty slots becomes a
final deadline with empty due set. -/
def Schedule.condense_deadlines (gcd : ℕ) (extend_steps : List (List StreamReference)) :
    List Deadline :=
  let p := extend_steps.foldl (Schedule.condenseStep gcd) (0, [])
  if p.1 ≠ 0 then p.2 ++ [{ pause := p.1 * gcd, due := [] }] else p.2

/-- Construction of the schedule from the time-driven streams of the IR
(`Schedule::from`; named `fromIR` because `from` is reserved in Lean). -/
def Schedule.fromIR (time_driven : List TimeDrivenStream) : Schedule :=
  let rates := time_driven.map (fun s => s.extend_rate)
  let gcd := Schedule.find_extend_period rates
  let hyper_period := Schedule.find_hyper_period rates
  let extend_steps := Schedule.build_extend_steps time_driven gcd hyper_period
  let extend_steps2 := Schedule.apply_periodicity extend_steps
  { gcd := gcd, hyper_period := hyper_period,
    deadlines := Schedule.condense_deadlines gcd extend_steps2 }

/-! ### Helper lemmas: gcd/lcm over rate lists (spec P3) -/

theorem gcd_all_dvd {rates : List ℕ} {r : ℕ} (hr : r ∈ rates) : gcd_all rates ∣ r := by
  induction rates with
  | nil => cases hr
  | cons a l ih =>
    rcases List.mem_cons.mp hr with h | h
    · subst h; exact Nat.gcd_dvd_left _ _
    · exact dvd_trans (Nat.gcd_dvd_right _ _) (ih h)

theorem dvd_lcm_all {rates : List ℕ} {r : ℕ} (hr : r ∈ rates) : r ∣ lcm_all rates := by
  induction rates with
  | nil => cases hr
  | cons a l ih =>
    rcases List.mem_cons.mp hr with h | h
    · subst h; exact Nat.dvd_lcm_left _ _
    · exact dvd_trans (ih h) (Nat.dvd_lcm_right _ _)

theorem gcd_all_pos {rates : List ℕ} (hne : rates ≠ []) (hpos : ∀ r ∈ rates, 0 < r) :
    0 < gcd_all rates := by
  cases rates with
  | nil => exact absurd rfl hne
  | cons a l =>
    have ha : 0 < a := hpos a (List.mem_cons_self a l)
    refine Nat.pos_of_ne_zero fun h => ?_
    have := (Nat.gcd_eq_zero_iff).mp h
    omega

theorem lcm_all_pos {rates : List ℕ} (hpos : ∀ r ∈ rates, 0 < r) : 0 < lcm_all rates := by
  induction rates with
  | nil => exact Nat.one_pos
  | cons a l ih =>
    exact Nat.lcm_pos (hpos a (List.mem_cons_self a l))
      (ih fun r hr => hpos r (List.mem_cons_of_mem a hr))

theorem gcd_all_dvd_lcm_all {rates : List ℕ} (hne : rates ≠ []) :
    gcd_all rates ∣ lcm_all rates := by
  cases rates with
  | nil => exact absurd rfl hne
  | cons a l =>
    exact dvd_trans (gcd_all_dvd (List.mem_cons_self a l))
      (dvd_lcm_all (List.mem_cons_self a l))

/-! ### Helper lemmas: lists accessed through `getD` -/

theorem getD_set_eq_ite {β : Type} (l : List β) (i j : ℕ) (v d : β) :
    (l.set i v).getD j d = if i = j ∧ i < l.length then v else l.getD j d := by
  rw [List.getD_eq_getElem?_getD, List.getD_eq_getElem?_getD, List.getElem?_set]
  by_cases hij : i = j
  · subst hij
    by_cases hi : i < l.length
    · simp [hi]
    · simp [hi, List.getElem?_eq_none (Nat.le_of_not_lt hi)]
  · simp [hij]

theorem getD_replicate_nil {β : Type} (n j : ℕ) :
    (List.replicate n ([] : List β)).getD j [] = [] := by
  rw [List.getD_eq_getElem?_getD, List.getElem?_replicate]
  by_cases h : j < n <;> simp [h]

theorem countP_eq_range_countP {β : Type} (l : List β) (p : β → Bool) (d : β) :
    l.countP p = (List.range l.length).countP (fun j => p (l.getD j d)) := by
  induction l with
  | nil => simp
  | cons a l ih =>
    have hcomp : ((fun j => p ((a :: l).getD j d)) ∘ Nat.succ) = fun j => p (l.getD j d) := by
      funext j
      simp [Function.comp, List.getD_cons_succ]
    rw [List.countP_cons, List.length_cons, List.range_succ_eq_map, List.countP_cons,
      List.countP_map, hcomp, ← ih]
    simp [List.getD_cons_zero]

theorem range_countP_dvd (n d : ℕ) : (List.range n).countP (fun j => decide (d ∣ (j + 1))) = n / d := by
  induction n with
  | zero => simp
  | succ n ih =>
    rw [List.range_succ, List.countP_append, ih, Nat.succ_div]
    by_cases h : d ∣ n + 1 <;> simp [h, List.countP_cons]

theorem nat_div_div_cancel {g r H : ℕ} (hg : 0 < g) (hgr : g ∣ r) (hr : 0 < r) (hrH : r ∣ H) :
    (H / g) / (r / g) = H / r := by
  have hrg : 0 < r / g := Nat.div_pos (Nat.le_of_dvd hr hgr) hg
  have key : H / g = (H / r) * (r / g) := by
    have h1 : (H / r) * (r / g) * g = H := by
      rw [Nat.mul_assoc, Nat.div_mul_cancel hgr, Nat.div_mul_cancel hrH]
    calc H / g = ((H / r) * (r / g) * g) / g := by rw [h1]
    _ = (H / r) * (r / g) := Nat.mul_div_cancel _ hg
  rw [key, Nat.mul_div_cancel _ hrg]

/-! ### Characterization of `build_extend_steps` -/

theorem build_fold_length (td : List TimeDrivenStream) (g : ℕ)
    (acc : List (List StreamReference)) :
    (td.foldl
      (fun steps s =>
        steps.set (divide_durations s.extend_rate g false - 1)
          (steps.getD (divide_durations s.extend_rate g false - 1) [] ++ [s.reference]))
      acc).length = acc.length := by
  induction td generalizing acc with
  | nil => rfl
  | cons t td ih => rw [List.foldl_cons, ih, List.length_set]

theorem build_fold_mem (td : List TimeDrivenStream) (g : ℕ)
    (acc : List (List StreamReference)) (s : StreamReference) (j : ℕ) :
    s ∈ (td.foldl
      (fun steps u =>
        steps.set (divide_durations u.extend_rate g false - 1)
          (steps.getD (divide_durations u.extend_rate g false - 1) [] ++ [u.reference]))
      acc).getD j [] ↔
    s ∈ acc.getD j [] ∨
      ∃ u ∈ td, u.reference = s ∧ j = divide_durations u.extend_rate g false - 1 ∧
        j < acc.length := by
  induction td generalizing acc with
  | nil => simp
  | cons t td ih =>
    rw [List.foldl_cons, ih]
    rw [List.length_set, getD_set_eq_ite]
    constructor
    · rintro (hmem | ⟨u, hu, hus, hju, hjl⟩)
      · by_cases hc : divide_durations t.extend_rate g false - 1 = j ∧
            divide_durations t.extend_rate g false - 1 < acc.length
        · rw [if_pos hc] at hmem
          rcases List.mem_append.mp hmem with h | h
          · exact Or.inl (hc.1 ▸ h)
          · rcases List.mem_singleton.mp h with rfl
            exact Or.inr ⟨t, List.mem_cons_self t td, rfl, hc.1.symm, hc.1 ▸ hc.2⟩
        · rw [if_neg hc] at hmem
          exact Or.inl hmem
      · exact Or.inr ⟨u, List.mem_cons_of_mem t hu, hus, hju, hjl⟩
    · rintro (hmem | ⟨u, hu, hus, hju, hjl⟩)
      · left
        by_cases hc : divide_durations t.extend_rate g false - 1 = j ∧
            divide_durations t.extend_rate g false - 1 < acc.length
        · rw [if_pos hc, hc.1]
          exact List.mem_append_left _ hmem
        · rwa [if_neg hc]
      · rcases List.mem_cons.mp hu with rfl | hu
        · left
          have hc : divide_durations u.extend_rate g false - 1 = j ∧
              divide_durations u.extend_rate g false - 1 < acc.length := ⟨hju.symm, hju ▸ hjl⟩
          rw [if_pos hc, hc.1]
          exact List.mem_append_right _ (hus ▸ List.mem_singleton_self s)
        · exact Or.inr ⟨u, hu, hus, hju, hjl⟩

theorem length_build_extend_steps (td : List TimeDrivenStream) (g H : ℕ) :
    (Schedule.build_extend_steps td g H).length = divide_durations H g false := by
  unfold Schedule.build_extend_steps
  rw [build_fold_length, List.length_replicate]

theorem mem_build_extend_steps (td : List TimeDrivenStream) (g H : ℕ)
    (s : StreamReference) (j : ℕ) :
    s ∈ (Schedule.build_extend_steps td g H).getD j [] ↔
      ∃ u ∈ td, u.reference = s ∧ j = divide_durations u.extend_rate g false - 1 ∧
        j < divide_durations H g false := by
  unfold Schedule.build_extend_steps
  rw [build_fold_mem, getD_replicate_nil, List.length_replicate]
  simp

/-! ### Characterization of `apply_periodicity` -/

theorem length_applyPerAux (streams : List StreamReference) (ix fuel k : ℕ)
    (res : List (List StreamReference)) :
    (Schedule.applyPerAux streams ix fuel k res).length = res.length := by
  induction fuel generalizing k res with
  | zero => rfl
  | succ fuel ih =>
    rw [Schedule.applyPerAux]
    split
    next h => rw [ih, List.length_set]
    next => rfl

theorem mem_applyPerAux (streams : List StreamReference) (ix fuel k : ℕ)
    (res : List (List StreamReference)) (s : StreamReference) (j : ℕ)
    (hfuel : res.length + 1 ≤ fuel + k) :
    s ∈ (Schedule.applyPerAux streams ix fuel k res).getD j [] ↔
      s ∈ res.getD j [] ∨
        (s ∈ streams ∧ ∃ m, k ≤ m ∧ j = m * (ix + 1) - 1 ∧ j < res.length) := by
  induction fuel generalizing k res with
  | zero =>
    show s ∈ res.getD j [] ↔ _
    constructor
    · exact Or.inl
    · rintro (hmem | ⟨hs, m, hm, hjm, hjl⟩)
      · exact hmem
      · exfalso
        have h1 : m ≤ m * (ix + 1) := Nat.le_mul_of_pos_right _ (Nat.succ_pos _)
        omega
  | succ fuel ih =>
    rw [Schedule.applyPerAux]
    split
    next hin =>
      rw [ih (k + 1) _ (by rw [List.length_set]; omega), List.length_set, getD_set_eq_ite]
      by_cases hj : k * (ix + 1) - 1 = j
      · subst hj
        rw [if_pos ⟨rfl, hin⟩]
        constructor
        · rintro (hmem | ⟨hs, m, hm, hjm, hjl⟩)
          · rcases List.mem_append.mp hmem with h | h
            · exact Or.inl h
            · exact Or.inr ⟨h, k, Nat.le_refl k, rfl, hin⟩
          · exact Or.inr ⟨hs, m, Nat.le_of_succ_le hm, hjm, hjl⟩
        · rintro (hmem | ⟨hs, m, _, _, _⟩)
          · exact Or.inl (List.mem_append_left _ hmem)
          · exact Or.inl (List.mem_append_right _ hs)
      · rw [if_neg (fun hc => hj hc.1)]
        constructor
        · rintro (hmem | ⟨hs, m, hm, hjm, hjl⟩)
          · exact Or.inl hmem
          · exact Or.inr ⟨hs, m, Nat.le_of_succ_le hm, hjm, hjl⟩
        · rintro (hmem | ⟨hs, m, hm, hjm, hjl⟩)
          · exact Or.inl hmem
          · refine Or.inr ⟨hs, m, ?_, hjm, hjl⟩
            rcases Nat.lt_or_ge k m with hlt | hge
            · exact hlt
            · have hmk : m = k := Nat.le_antisymm hge hm
              rw [hmk] at hjm
              exact absurd hjm.symm hj
    next hout =>
      constructor
      · exact Or.inl
      · rintro (hmem | ⟨hs, m, hm, hjm, hjl⟩)
        · exact hmem
        · exfalso
          have h1 : k * (ix + 1) ≤ m * (ix + 1) := Nat.mul_le_mul_right _ hm
          have h2 : k * (ix + 1) - 1 ≤ m * (ix + 1) - 1 := Nat.sub_le_sub_right h1 1
          omega

theorem apply_fold_length (ps : List (ℕ × List StreamReference))
    (acc : List (List StreamReference)) :
    (ps.foldl
      (fun res p =>
        if p.2.isEmpty then res else Schedule.applyPerAux p.2 p.1 (res.length + 1) 1 res)
      acc).length = acc.length := by
  induction ps generalizing acc with
  | nil => rfl
  | cons p ps ih =>
    rw [List.foldl_cons]
    by_cases hp : p.2.isEmpty
    · rw [if_pos hp, ih]
    · rw [if_neg hp, ih, length_applyPerAux]

theorem length_apply_periodicity (steps : List (List StreamReference)) :
    (Schedule.apply_periodicity steps).length = steps.length := by
  unfold Schedule.apply_periodicity
  rw [apply_fold_length, List.length_replicate]

theorem apply_fold_mem (ps : List (ℕ × List StreamReference))
    (acc : List (List StreamReference)) (s : StreamReference) (j : ℕ) :
    s ∈ (ps.foldl
      (fun res p =>
        if p.2.isEmpty then res else Schedule.applyPerAux p.2 p.1 (res.length + 1) 1 res)
      acc).getD j [] ↔
    s ∈ acc.getD j [] ∨
      ∃ p ∈ ps, s ∈ p.2 ∧ ∃ m, 1 ≤ m ∧ j = m * (p.1 + 1) - 1 ∧ j < acc.length := by
  induction ps generalizing acc with
  | nil => simp
  | cons p ps ih =>
    rw [List.foldl_cons]
    by_cases hp : p.2.isEmpty
    · rw [if_pos hp, ih]
      have hpnil : p.2 = [] := List.isEmpty_iff.mp hp
      constructor
      · rintro (hmem | ⟨q, hq, hqs, hm⟩)
        · exact Or.inl hmem
        · exact Or.inr ⟨q, List.mem_cons_of_mem p hq, hqs, hm⟩
      · rintro (hmem | ⟨q, hq, hqs, hm⟩)
        · exact Or.inl hmem
        · rcases List.mem_cons.mp hq with rfl | hq
          · rw [hpnil] at hqs
            cases hqs
          · exact Or.inr ⟨q, hq, hqs, hm⟩
    · rw [if_neg hp, ih]
      have hflarge : acc.length + 1 ≤ (acc.length + 1) + 1 := by omega
      constructor
      · rintro (hmem | ⟨q, hq, hqs, hm⟩)
        · rcases (mem_applyPerAux p.2 p.1 (acc.length + 1) 1 acc s j hflarge).mp hmem with
            h | ⟨hs, m, hm1, hjm, hjl⟩
          · exact Or.inl h
          · exact Or.inr ⟨p, List.mem_cons_self p ps, hs, m, hm1, hjm, hjl⟩
        · rw [length_applyPerAux] at hm
          exact Or.inr ⟨q, List.mem_cons_of_mem p hq, hqs, hm⟩
      · rintro (hmem | ⟨q, hq, hqs, m, hm1, hjm, hjl⟩)
        · exact Or.inl
            ((mem_applyPerAux p.2 p.1 (acc.length + 1) 1 acc s j hflarge).mpr (Or.inl hmem))
        · rcases List.mem_cons.mp hq with rfl | hq
          · exact Or.inl
              ((mem_applyPerAux q.2 q.1 (acc.length + 1) 1 acc s j hflarge).mpr
                (Or.inr ⟨hqs, m, hm1, hjm, hjl⟩))
          · refine Or.inr ⟨q, hq, hqs, m, hm1, hjm, ?_⟩
            rw [length_applyPerAux]
            exact hjl

theorem mem_apply_periodicity (steps : List (List StreamReference))
    (s : StreamReference) (j : ℕ) :
    s ∈ (Schedule.apply_periodicity steps).getD j [] ↔
      ∃ ix, ix < steps.length ∧ s ∈ steps.getD ix [] ∧
        ∃ m, 1 ≤ m ∧ j = m * (ix + 1) - 1 ∧ j < steps.length := by
  unfold Schedule.apply_periodicity
  rw [apply_fold_mem, getD_replicate_nil, List.length_replicate]
  simp only [List.not_mem_nil, false_or]
  constructor
  · rintro ⟨p, hp, hps, m, hm1, hjm, hjl⟩
    rcases p with ⟨ix, streams⟩
    obtain ⟨hix, hstreams⟩ := List.mem_enum hp
    refine ⟨ix, hix, ?_, m, hm1, hjm, hjl⟩
    rw [List.getD_eq_getElem _ _ hix, ← hstreams]
    exact hps
  · rintro ⟨ix, hix, hmem, m, hm1, hjm, hjl⟩
    have hlen : ix < steps.enum.length := by rw [List.enum_length]; exact hix
    refine ⟨(ix, steps[ix]), ?_, ?_, m, hm1, hjm, hjl⟩
    · rw [← List.getElem_enum steps ix hlen]
      exact List.getElem_mem hlen
    · rw [List.getD_eq_getElem _ _ hix] at hmem
      exact hmem

/-! ### Characterization of `condense_deadlines` -/

theorem condenseStep_empty (g c : ℕ) (ds : List Deadline) (slot : List StreamReference)
    (hs : slot.isEmpty = true) :
    Schedule.condenseStep g (c, ds) slot = (c + 1, ds) := by
  unfold Schedule.condenseStep
  rw [if_pos hs]

theorem condenseStep_nonempty (g c : ℕ) (ds : List Deadline) (slot : List StreamReference)
    (hs : ¬slot.isEmpty = true) :
    Schedule.condenseStep g (c, ds) slot =
      (0, ds ++ [{ pause := (c + 1) * g, due := slot }]) := by
  unfold Schedule.condenseStep
  rw [if_neg hs]

theorem condense_fold_countP (g : ℕ) (slots : List (List StreamReference))
    (q : List StreamReference → Bool) (hq : q [] = false) (c : ℕ) (ds : List Deadline) :
    ((slots.foldl (Schedule.condenseStep g) (c, ds)).2).countP (fun d => q d.due) =
      ds.countP (fun d => q d.due) + slots.countP q := by
  induction slots generalizing c ds with
  | nil => simp
  | cons slot slots ih =>
    rw [List.foldl_cons, List.countP_cons]
    by_cases hs : slot.isEmpty
    · have hnil : slot = [] := List.isEmpty_iff.mp hs
      rw [condenseStep_empty g c ds slot hs, ih]
      rw [hnil, hq]
      simp
    · rw [condenseStep_nonempty g c ds slot hs, ih, List.countP_append]
      simp only [List.countP_cons, List.countP_nil]
      omega

theorem condense_fold_sum (g : ℕ) (slots : List (List StreamReference))
    (c : ℕ) (ds : List Deadline) :
    (((slots.foldl (Schedule.condenseStep g) (c, ds)).2).map (fun d => d.pause)).sum +
        (slots.foldl (Schedule.condenseStep g) (c, ds)).1 * g =
      (ds.map (fun d => d.pause)).sum + c * g + slots.length * g := by
  induction slots generalizing c ds with
  | nil => simp
  | cons slot slots ih =>
    rw [List.foldl_cons]
    by_cases hs : slot.isEmpty
    · rw [condenseStep_empty g c ds slot hs, ih]
      simp only [List.length_cons]
      ring
    · rw [condenseStep_nonempty g c ds slot hs, ih, List.map_append, List.sum_append]
      simp only [List.map_cons, List.map_nil, List.sum_cons, List.sum_nil, List.length_cons]
      ring

theorem condense_fold_shape (g : ℕ) (slots : List (List StreamReference))
    (c : ℕ) (ds : List Deadline) (hg : 0 < g)
    (hds : ∀ d ∈ ds, 0 < d.pause ∧ d.due ≠ []) :
    ∀ d ∈ (slots.foldl (Schedule.condenseStep g) (c, ds)).2, 0 < d.pause ∧ d.due ≠ [] := by
  induction slots generalizing c ds with
  | nil => exact hds
  | cons slot slots ih =>
    rw [List.foldl_cons]
    by_cases hs : slot.isEmpty
    · rw [condenseStep_empty g c ds slot hs]
      exact ih _ _ hds
    · rw [condenseStep_nonempty g c ds slot hs]
      refine ih _ _ fun d hd => ?_
      rcases List.mem_append.mp hd with h | h
      · exact hds d h
      · rcases List.mem_singleton.mp h with rfl
        refine ⟨Nat.mul_pos (Nat.succ_pos c) hg, ?_⟩
        simpa [List.isEmpty_iff] using hs

theorem condense_countP (g : ℕ) (slots : List (List StreamReference))
    (q : List StreamReference → Bool) (hq : q [] = false) :
    (Schedule.condense_deadlines g slots).countP (fun d => q d.due) = slots.countP q := by
  simp only [Schedule.condense_deadlines]
  split
  · rw [List.countP_append, condense_fold_countP g slots q hq]
    simp [hq]
  · rw [condense_fold_countP g slots q hq]
    simp

theorem condense_sum (g : ℕ) (slots : List (List StreamReference)) :
    ((Schedule.condense_deadlines g slots).map (fun d => d.pause)).sum = slots.length * g := by
  have h := condense_fold_sum g slots 0 []
  simp only [List.map_nil, List.sum_nil, Nat.zero_mul, Nat.zero_add] at h
  simp only [Schedule.condense_deadlines]
  split
  next hr =>
    rw [List.map_append, List.sum_append]
    simp only [List.map_cons, List.map_nil, List.sum_cons, List.sum_nil]
    omega
  next hr =>
    rw [Decidable.not_not] at hr
    rw [hr, Nat.zero_mul, Nat.add_zero] at h
    exact h

theorem condense_shape (g : ℕ) (slots : List (List StreamReference)) (hg : 0 < g) :
    (∀ d ∈ Schedule.condense_deadlines g slots, 0 < d.pause) ∧
    (∀ j, j + 1 < (Schedule.condense_deadlines g slots).length →
      ((Schedule.condense_deadlines g slots).getD j { pause := 0, due := [] }).due ≠ []) := by
  have hfold := condense_fold_shape g slots 0 [] hg (by intro d hd; cases hd)
  simp only [Schedule.condense_deadlines]
  split
  next hr =>
    constructor
    · intro d hd
      rcases List.mem_append.mp hd with h | h
      · exact (hfold d h).1
      · rcases List.mem_singleton.mp h with rfl
        exact Nat.mul_pos (Nat.pos_of_ne_zero hr) hg
    · intro j hj
      rw [List.length_append, List.length_cons, List.length_nil] at hj
      have hjl : j < (slots.foldl (Schedule.condenseStep g) (0, [])).2.length := by omega
      rw [List.getD_append _ _ _ _ hjl, List.getD_eq_getElem _ _ hjl]
      exact (hfold _ (List.getElem_mem hjl)).2
  next hr =>
    constructor
    · intro d hd
      exact (hfold d hd).1
    · intro j hj
      have hjl : j < (slots.foldl (Schedule.condenseStep g) (0, [])).2.length := by omega
      rw [List.getD_eq_getElem _ _ hjl]
      exact (hfold _ (List.getElem_mem hjl)).2

/-! ### Assembly: the slot array and deadline list of `Schedule::from` -/

/-- Extend rates of the time-driven streams, as collected in `Schedule::from`. -/
def Schedule.ratesOf (time_driven : List TimeDrivenStream) : List ℕ :=
  time_driven.map (fun s => s.extend_rate)

/-- The slot array computed inside `Schedule::from`: first firings followed by
the periodic closure. -/
def Schedule.slotsOf (time_driven : List TimeDrivenStream) : List (List StreamReference) :=
  Schedule.apply_periodicity
    (Schedule.build_extend_steps time_driven
      (Schedule.find_extend_period (Schedule.ratesOf time_driven))
      (Schedule.find_hyper_period (Schedule.ratesOf time_driven)))

theorem fromIR_deadlines (td : List TimeDrivenStream) :
    (Schedule.fromIR td).deadlines =
      Schedule.condense_deadlines (Schedule.find_extend_period (Schedule.ratesOf td))
        (Schedule.slotsOf td) := rfl

theorem fromIR_gcd (td : List TimeDrivenStream) :
    (Schedule.fromIR td).gcd = Schedule.find_extend_period (Schedule.ratesOf td) := rfl

theorem fromIR_hyper_period (td : List TimeDrivenStream) :
    (Schedule.fromIR td).hyper_period = Schedule.find_hyper_period (Schedule.ratesOf td) := rfl

theorem divide_durations_false (a b : ℕ) : divide_durations a b false = a / b := by
  simp [divide_durations]

theorem slotsOf_length (td : List TimeDrivenStream) :
    (Schedule.slotsOf td).length =
      Schedule.find_hyper_period (Schedule.ratesOf td) /
        Schedule.find_extend_period (Schedule.ratesOf td) := by
  unfold Schedule.slotsOf
  rw [length_apply_periodicity, length_build_extend_steps, divide_durations_false]

theorem mem_slotsOf_iff (td : List TimeDrivenStream) (t : TimeDrivenStream)
    (hne : td ≠ []) (hpos : ∀ u ∈ td, 0 < u.extend_rate) (ht : t ∈ td)
    (huniq : ∀ u ∈ td, u.reference = t.reference → u.extend_rate = t.extend_rate) (j : ℕ) :
    t.reference ∈ (Schedule.slotsOf td).getD j [] ↔
      ∃ k, 1 ≤ k ∧ j = k * (t.extend_rate / Schedule.find_extend_period (Schedule.ratesOf td)) - 1 ∧
        j < (Schedule.slotsOf td).length := by
  have hrne : Schedule.ratesOf td ≠ [] := by
    intro h
    exact hne (List.map_eq_nil_iff.mp h)
  have hrpos : ∀ r ∈ Schedule.ratesOf td, 0 < r := by
    intro r hr
    rcases List.mem_map.mp hr with ⟨u, hu, rfl⟩
    exact hpos u hu
  have hrmem : t.extend_rate ∈ Schedule.ratesOf td := List.mem_map_of_mem _ ht
  have hg : 0 < Schedule.find_extend_period (Schedule.ratesOf td) := gcd_all_pos hrne hrpos
  have hgr : Schedule.find_extend_period (Schedule.ratesOf td) ∣ t.extend_rate :=
    gcd_all_dvd hrmem
  have hr : 0 < t.extend_rate := hpos t ht
  have hrH : t.extend_rate ∣ Schedule.find_hyper_period (Schedule.ratesOf td) :=
    dvd_lcm_all hrmem
  have hH : 0 < Schedule.find_hyper_period (Schedule.ratesOf td) := lcm_all_pos hrpos
  set g := Schedule.find_extend_period (Schedule.ratesOf td) with hgdef
  set H := Schedule.find_hyper_period (Schedule.ratesOf td) with hHdef
  have hd1 : 1 ≤ t.extend_rate / g := Nat.div_pos (Nat.le_of_dvd hr hgr) hg
  have hdle : t.extend_rate / g ≤ H / g := Nat.div_le_div_right (Nat.le_of_dvd hH hrH)
  have hlen := slotsOf_length td
  rw [← hgdef, ← hHdef] at hlen
  unfold Schedule.slotsOf
  rw [mem_apply_periodicity, length_build_extend_steps, divide_durations_false,
    ← hgdef, ← hHdef]
  have hfix : t.extend_rate / g - 1 + 1 = t.extend_rate / g := by omega
  constructor
  · rintro ⟨ix, hix, hmem, m, hm1, hjm, hjl⟩
    rcases (mem_build_extend_steps td g H t.reference ix).mp hmem with ⟨u, hu, hus, hixu, _⟩
    rw [divide_durations_false] at hixu
    rw [huniq u hu hus] at hixu
    have hfix2 : ix + 1 = t.extend_rate / g := by omega
    refine ⟨m, hm1, ?_, ?_⟩
    · rw [hjm, hfix2]
    · rw [length_apply_periodicity, length_build_extend_steps, divide_durations_false]
      exact hjl
  · rintro ⟨k, hk1, hjk, hjlen⟩
    rw [length_apply_periodicity, length_build_extend_steps, divide_durations_false] at hjlen
    refine ⟨t.extend_rate / g - 1, by omega, ?_, k, hk1, ?_, hjlen⟩
    · refine (mem_build_extend_steps td g H t.reference _).mpr ⟨t, ht, rfl, ?_, ?_⟩
      · rw [divide_durations_false]
      · rw [divide_durations_false]
        omega
    · rw [hfix]
      exact hjk

theorem countP_slotsOf (td : List TimeDrivenStream) (t : TimeDrivenStream)
    (hne : td ≠ []) (hpos : ∀ u ∈ td, 0 < u.extend_rate) (ht : t ∈ td)
    (huniq : ∀ u ∈ td, u.reference = t.reference → u.extend_rate = t.extend_rate) :
    (Schedule.slotsOf td).countP (fun slot => slot.contains t.reference) =
      Schedule.find_hyper_period (Schedule.ratesOf td) / t.extend_rate := by
  have hrne : Schedule.ratesOf td ≠ [] := by
    intro h
    exact hne (List.map_eq_nil_iff.mp h)
  have hrpos : ∀ r ∈ Schedule.ratesOf td, 0 < r := by
    intro r hr
    rcases List.mem_map.mp hr with ⟨u, hu, rfl⟩
    exact hpos u hu
  have hrmem : t.extend_rate ∈ Schedule.ratesOf td := List.mem_map_of_mem _ ht
  have hg : 0 < Schedule.find_extend_period (Schedule.ratesOf td) := gcd_all_pos hrne hrpos
  have hgr : Schedule.find_extend_period (Schedule.ratesOf td) ∣ t.extend_rate :=
    gcd_all_dvd hrmem
  have hr : 0 < t.extend_rate := hpos t ht
  have hrH : t.extend_rate ∣ Schedule.find_hyper_period (Schedule.ratesOf td) :=
    dvd_lcm_all hrmem
  have hd1 : 1 ≤ t.extend_rate / Schedule.find_extend_period (Schedule.ratesOf td) :=
    Nat.div_pos (Nat.le_of_dvd hr hgr) hg
  have hlen := slotsOf_length td
  rw [countP_eq_range_countP (Schedule.slotsOf td) _ [], hlen]
  have hcong : (List.range (Schedule.find_hyper_period (Schedule.ratesOf td) /
        Schedule.find_extend_period (Schedule.ratesOf td))).countP
      (fun j => ((Schedule.slotsOf td).getD j []).contains t.reference) =
      (List.range (Schedule.find_hyper_period (Schedule.ratesOf td) /
        Schedule.find_extend_period (Schedule.ratesOf td))).countP
      (fun j => decide
        ((t.extend_rate / Schedule.find_extend_period (Schedule.ratesOf td)) ∣ (j + 1))) := by
    refine List.countP_congr fun j hj => ?_
    have hjlt : j < Schedule.find_hyper_period (Schedule.ratesOf td) /
        Schedule.find_extend_period (Schedule.ratesOf td) := List.mem_range.mp hj
    rw [List.elem_iff, decide_eq_true_eq]
    rw [mem_slotsOf_iff td t hne hpos ht huniq j]
    constructor
    · rintro ⟨k, hk1, hjk, _⟩
      have hkd : 1 ≤ k * (t.extend_rate / Schedule.find_extend_period (Schedule.ratesOf td)) :=
        Nat.mul_pos (by omega) (by omega)
      have hjsucc : j + 1 =
          k * (t.extend_rate / Schedule.find_extend_period (Schedule.ratesOf td)) := by omega
      exact ⟨k, by rw [hjsucc, Nat.mul_comm]⟩
    · rintro ⟨c, hc⟩
      have hc0 : c ≠ 0 := by
        rintro rfl
        rw [Nat.mul_zero] at hc
        omega
      have hcd : 1 ≤ (t.extend_rate / Schedule.find_extend_period (Schedule.ratesOf td)) * c :=
        Nat.mul_pos (by omega) (by omega)
      refine ⟨c, by omega, ?_, ?_⟩
      · rw [Nat.mul_comm]
        omega
      · rw [hlen]
        exact hjlt
  rw [hcong, range_countP_dvd, nat_div_div_cancel hg hgr hr hrH]

/-- C1: every time-driven stream with rate `r` occupies exactly the slots of
index `k * (i + 1) - 1` (`k ≥ 1`, in bounds) where `i = r / gcd - 1` is its
first-firing slot, and consequently is contained in the due sets of exactly
`hyper_period / r` deadlines of the schedule built by `Schedule::from`. -/
theorem schedule_stream_coverage
    (td : List TimeDrivenStream) (t : TimeDrivenStream)
    (hne : td ≠ []) (hpos : ∀ u ∈ td, 0 < u.extend_rate) (ht : t ∈ td)
    (huniq : ∀ u ∈ td, u.reference = t.reference → u.extend_rate = t.extend_rate) :
    (∀ j, t.reference ∈ (Schedule.slotsOf td).getD j [] ↔
        ∃ k, 1 ≤ k ∧
          j = k * ((t.extend_rate / Schedule.find_extend_period (Schedule.ratesOf td) - 1) + 1)
            - 1 ∧
          j < (Schedule.slotsOf td).length) ∧
    (Schedule.fromIR td).deadlines.countP (fun d => d.due.contains t.reference) =
      (Schedule.fromIR td).hyper_period / t.extend_rate := by
  have hrne : Schedule.ratesOf td ≠ [] := by
    intro h
    exact hne (List.map_eq_nil_iff.mp h)
  have hrpos : ∀ r ∈ Schedule.ratesOf td, 0 < r := by
    intro r hr
    rcases List.mem_map.mp hr with ⟨u, hu, rfl⟩
    exact hpos u hu
  have hrmem : t.extend_rate ∈ Schedule.ratesOf td := List.mem_map_of_mem _ ht
  have hg : 0 < Schedule.find_extend_period (Schedule.ratesOf td) := gcd_all_pos hrne hrpos
  have hgr : Schedule.find_extend_period (Schedule.ratesOf td) ∣ t.extend_rate :=
    gcd_all_dvd hrmem
  have hr : 0 < t.extend_rate := hpos t ht
  have hd1 : 1 ≤ t.extend_rate / Schedule.find_extend_period (Schedule.ratesOf td) :=
    Nat.div_pos (Nat.le_of_dvd hr hgr) hg
  constructor
  · intro j
    rw [mem_slotsOf_iff td t hne hpos ht huniq j]
    have hfix : t.extend_rate / Schedule.find_extend_period (Schedule.ratesOf td) - 1 + 1 =
        t.extend_rate / Schedule.find_extend_period (Schedule.ratesOf td) := by omega
    rw [hfix]
  · rw [fromIR_deadlines, fromIR_hyper_period]
    rw [condense_countP _ _ (fun slot => slot.contains t.reference) rfl]
    exact countP_slotsOf td t hne hpos ht huniq

/-- C2: the pauses of the deadlines of the schedule built by `Schedule::from`
sum up to the hyper period, the LCM of the extend rates. -/
theorem schedule_pause_sum (td : List TimeDrivenStream)
    (hne : td ≠ []) (hpos : ∀ u ∈ td, 0 < u.extend_rate) :
    ((Schedule.fromIR td).deadlines.map (fun d => d.pause)).sum =
        (Schedule.fromIR td).hyper_period ∧
      (Schedule.fromIR td).hyper_period = lcm_all (Schedule.ratesOf td) := by
  have hrne : Schedule.ratesOf td ≠ [] := by
    intro h
    exact hne (List.map_eq_nil_iff.mp h)
  have hrpos : ∀ r ∈ Schedule.ratesOf td, 0 < r := by
    intro r hr
    rcases List.mem_map.mp hr with ⟨u, hu, rfl⟩
    exact hpos u hu
  have hgH : Schedule.find_extend_period (Schedule.ratesOf td) ∣
      Schedule.find_hyper_period (Schedule.ratesOf td) := gcd_all_dvd_lcm_all hrne
  refine ⟨?_, rfl⟩
  rw [fromIR_deadlines, fromIR_hyper_period, condense_sum, slotsOf_length]
  exact Nat.div_mul_cancel hgH

/-- C3: in the schedule built by `Schedule::from`, every deadline has a
strictly positive pause, and only the final deadline may carry an empty due
set. -/
theorem schedule_deadline_shape (td : List TimeDrivenStream)
    (hne : td ≠ []) (hpos : ∀ u ∈ td, 0 < u.extend_rate) :
    (∀ d ∈ (Schedule.fromIR td).deadlines, 0 < d.pause) ∧
    (∀ j, j + 1 < (Schedule.fromIR td).deadlines.length →
      ((Schedule.fromIR td).deadlines.getD j { pause := 0, due := [] }).due ≠ []) := by
  have hrne : Schedule.ratesOf td ≠ [] := by
    intro h
    exact hne (List.map_eq_nil_iff.mp h)
  have hrpos : ∀ r ∈ Schedule.ratesOf td, 0 < r := by
    intro r hr
    rcases List.mem_map.mp hr with ⟨u, hu, rfl⟩
    exact hpos u hu
  rw [fromIR_deadlines]
  exact condense_shape _ _ (gcd_all_pos hrne hrpos)

theorem schedule_stream_coverage_witness :
    (Schedule.fromIR [⟨.OutRef 0, 2⟩, ⟨.OutRef 1, 3⟩]).deadlines.countP
        (fun d => d.due.contains (StreamReference.OutRef 0)) = 3 :=
  Eq.trans
    ((schedule_stream_coverage [⟨.OutRef 0, 2⟩, ⟨.OutRef 1, 3⟩] ⟨.OutRef 0, 2⟩
      (by decide) (by decide) (by decide) (by decide)).2)
    (by decide)

theorem schedule_pause_sum_witness :
    ((Schedule.fromIR [⟨.OutRef 0, 2⟩, ⟨.OutRef 1, 3⟩]).deadlines.map
        (fun d => d.pause)).sum = 6 :=
  Eq.trans
    ((schedule_pause_sum [⟨.OutRef 0, 2⟩, ⟨.OutRef 1, 3⟩] (by decide) (by decide)).1)
    (by decide)

theorem schedule_deadline_shape_witness :
    ((Schedule.fromIR [⟨.OutRef 0, 2⟩, ⟨.OutRef 1, 3⟩]).deadlines.getD 0
        { pause := 0, due := [] }).due ≠ [] :=
  (schedule_deadline_shape [⟨.OutRef 0, 2⟩, ⟨.OutRef 1, 3⟩]
    (by decide) (by decide)).2 0 (by decide)

/-! ### Value runtime (`rtlola/src/storage/value.rs`) -/

/-- Modelled from the `lola_parser` dependency: float bit widths (`FloatTy`). -/
inductive FloatTy where
  | F32
  | F64
deriving DecidableEq, Repr

/-- Modelled from the `lola_parser` dependency: signed integer bit widths (`IntTy`). -/
inductive IntTy where
  | I8
  | I16
  | I32
  | I64
deriving DecidableEq, Repr

/-- Modelled from the `lola_parser` dependency: unsigned integer bit widths (`UIntTy`). -/
inductive UIntTy where
  | U8
  | U16
  | U32
  | U64
deriving DecidableEq, Repr

/-- Modelled from the `lola_parser` dependency: the value types matched by
`Value::try_from` (`Type`), with exactly the variants the source matches on. -/
inductive Ty where
  | Bool
  | Int (w : IntTy)
  | UInt (w : UIntTy)
  | Float (w : FloatTy)
  | String
  | Tuple (tys : List Ty)
  | Option (ty : Ty)

/-- Idealization of an `f64` as produced by parsing: NaN, a signed infinity,
or a finite value kept as an exact rational.  IEEE rounding and overflow to
infinity are not modelled; no claim depends on finite float values. -/
inductive FloatVal where
  | nan
  | inf (neg : Bool)
  | finite (val : ℚ)
deriving DecidableEq, Repr

/-- Decimal value of a digit string. -/
def decDigitsVal (cs : List Char) : ℕ :=
  cs.foldl (fun acc c => acc * 10 + (c.toNat - 48)) 0

/-- Sign handling shared by the numeric parsers: strip one leading `+` or `-`
and report whether the value is negated. -/
def splitSign (cs : List Char) : Bool × List Char :=
  if cs.head? = some '-' then (true, cs.tail)
  else if cs.head? = some '+' then (false, cs.tail)
  else (false, cs)

/-- Modelled from the Rust standard library: `str::parse::<u128>`.  An
optional leading `+`, then a nonempty digit string; overflow past the
128-bit domain is an error. -/
def rustParseU128 (s : String) : Option ℕ :=
  let cs := s.toList
  let ds := if cs.head? = some '+' then cs.tail else cs
  if ds ≠ [] ∧ ds.all Char.isDigit ∧ decDigitsVal ds < 2 ^ 128 then some (decDigitsVal ds)
  else none

/-- Signed decimal value of a digit string with its sign flag. -/
def signedVal (neg : Bool) (ds : List Char) : ℤ :=
  if neg then -(decDigitsVal ds : ℤ) else (decDigitsVal ds : ℤ)

/-- Modelled from the Rust standard library: `str::parse::<i128>`.  An
optional sign, then a nonempty digit string; the value must lie in the
128-bit two-complement domain. -/
def rustParseI128 (s : String) : Option ℤ :=
  let sp := splitSign s.toList
  if sp.2 ≠ [] ∧ sp.2.all Char.isDigit ∧
      -(2 ^ 127) ≤ signedVal sp.1 sp.2 ∧ signedVal sp.1 sp.2 < 2 ^ 127 then
    some (signedVal sp.1 sp.2)
  else none

/-- Modelled from the Rust standard library: `str::parse::<bool>` accepts
exactly `true` and `false`. -/
def rustParseBool (s : String) : Option Bool :=
  if s = "true" then some true
  else if s = "false" then some false
  else none

/-- Mantissa of a float token: `Digit+ (. Digit*)? | . Digit+`. -/
def f64Mantissa (cs : List Char) : Option ℚ :=
  let ip := cs.takeWhile Char.isDigit
  let rest := cs.dropWhile Char.isDigit
  match rest with
  | [] => if ip ≠ [] then some (decDigitsVal ip : ℚ) else none
  | '.' :: frac =>
    if (ip ≠ [] ∨ frac ≠ []) ∧ frac.all Char.isDigit then
      some ((decDigitsVal ip : ℚ) + (decDigitsVal frac : ℚ) / (10 : ℚ) ^ frac.length)
    else none
  | _ => none

/-- Exponent of a float token: an optional sign and a nonempty digit string. -/
def f64Exponent (cs : List Char) : Option ℤ :=
  let sp := splitSign cs
  if sp.2 ≠ [] ∧ sp.2.all Char.isDigit then
    some (if sp.1 then -(decDigitsVal sp.2 : ℤ) else (decDigitsVal sp.2 : ℤ))
  else none

/-- Number part of a float token: a mantissa, optionally followed by
`e`/`E` and an exponent. -/
def f64Number (cs : List Char) : Option ℚ :=
  let mant := cs.takeWhile (fun c => !(c == 'e' || c == 'E'))
  let rest := cs.dropWhile (fun c => !(c == 'e' || c == 'E'))
  match rest with
  | [] => f64Mantissa mant
  | _ :: exp =>
    match f64Mantissa mant, f64Exponent exp with
    | some m, some e => some (m * (10 : ℚ) ^ e)
    | _, _ => none

/-- Modelled from the Rust standard library: `str::parse::<f64>`.  The
grammar is `Sign? (inf | infinity | nan | Number)` with the special words
case-insensitive; finite values are kept as exact rationals (see
`FloatVal`). -/
def rustParseF64 (s : String) : Option FloatVal :=
  let sp := splitSign s.toList
  let low := sp.2.map Char.toLower
  if low = "inf".toList ∨ low = "infinity".toList then some (FloatVal.inf sp.1)
  else if low = "nan".toList then some FloatVal.nan
  else (f64Number sp.2).map (fun q => FloatVal.finite (if sp.1 then -q else q))

/-- Failure channel of the value runtime.  The first six constructors are the
Rust panics the code in `value.rs` can raise; `arithmeticFault` is the
reported error kind named by the error-handling design of the spec, included
so that statements can compare the actual failures against it — the code
never produces it. -/
inductive RtPanic where
  | unreachableCase
  | unimplementedCase
  | unwrapNone
  | divideByZero
  | intOverflow
  | incompatibleTypes
  | arithmeticFault
deriving DecidableEq, Repr

/-- Runtime values (`Value` in `rtlola/src/storage/value.rs`): `Unsigned`
holds a `u128` (here ℕ, range tracked in theorems), `Signed` an `i128`
(here ℤ), `Float` a `NotNan<f64>` whose non-NaN invariant is a proof
obligation rather than a type invariant in this embedding. -/
inductive Value where
  | Unsigned (v : ℕ)
  | Signed (v : ℤ)
  | Float (v : FloatVal)
  | Bool (b : Bool)
  | Str (s : String)
deriving DecidableEq, Repr

/-- Construction of a value from a textual cell (`Value::try_from` in
`rtlola/src/storage/value.rs`).  Panics are the `error` branch: an Option
type hits `panic!`, String and Tuple hit `unimplemented!`, and a Float text
parsing to NaN hits the `unwrap` in `NotNan::new(f).unwrap()`. -/
def Value.try_from (source : String) (ty : Ty) : Except RtPanic (Option Value) :=
  match ty with
  | .Option _ => .error .unreachableCase
  | .String => .error .unimplementedCase
  | .Tuple _ => .error .unimplementedCase
  | .Float _ =>
    match rustParseF64 source with
    | none => .ok none
    | some f => if f = .nan then .error .unwrapNone else .ok (some (.Float f))
  | .UInt _ => .ok ((rustParseU128 source).map Value.Unsigned)
  | .Int _ => .ok ((rustParseI128 source).map Value.Signed)
  | .Bool => .ok ((rustParseBool source).map Value.Bool)

/-- Modelled from the `ordered_float` dependency (not part of this
repository): division on the float payload, idealized on the `FloatVal`
abstraction; no claim depends on this arm. -/
def notNanDiv (a b : FloatVal) : FloatVal :=
  match a, b with
  | .nan, _ => .nan
  | _, .nan => .nan
  | .inf _, .inf _ => .nan
  | .inf s, .finite y => .inf (xor s (decide (y < 0)))
  | .finite _, .inf _ => .finite 0
  | .finite x, .finite y =>
    if y = 0 then (if x = 0 then .nan else .inf (decide (x < 0))) else .finite (x / y)

/-- Division on values (`impl ops::Div for Value` in
`rtlola/src/storage/value.rs`).  Rust division on machine integers panics on
a zero divisor and on `i128::MIN / -1`; mismatched tags reach the
`panic!("Incompatible types.")` arm. -/
def Value.div : Value → Value → Except RtPanic Value
  | .Unsigned v1, .Unsigned v2 =>
    if v2 = 0 then .error .divideByZero else .ok (.Unsigned (v1 / v2))
  | .Signed v1, .Signed v2 =>
    if v2 = 0 then .error .divideByZero
    else if v1 = -(2 ^ 127) ∧ v2 = -1 then .error .intOverflow
    else .ok (.Signed (Int.tdiv v1 v2))
  | .Float v1, .Float v2 => .ok (.Float (notNanDiv v1 v2))
  | _, _ => .error .incompatibleTypes

/-- Well-formed unsigned integer token per the spec: an optional plus sign,
a nonempty digit string, and a value within the 128-bit domain. -/
def wellFormedUIntToken (s : String) : Prop :=
  ∃ ds : List Char, (s.toList = ds ∨ s.toList = '+' :: ds) ∧ ds ≠ [] ∧
    (∀ c ∈ ds, c.isDigit) ∧ decDigitsVal ds < 2 ^ 128

/-- Well-formed signed integer token per the spec: an optional sign, a
nonempty digit string, and a value within the 128-bit two-complement
domain. -/
def wellFormedIntToken (s : String) : Prop :=
  ∃ (neg : Bool) (ds : List Char),
    ((neg = false ∧ (s.toList = ds ∨ s.toList = '+' :: ds)) ∨
      (neg = true ∧ s.toList = '-' :: ds)) ∧
    ds ≠ [] ∧ (∀ c ∈ ds, c.isDigit) ∧
    -(2 ^ 127) ≤ signedVal neg ds ∧ signedVal neg ds < 2 ^ 127

/-- Well-formed boolean token per the spec. -/
def wellFormedBoolToken (s : String) : Prop := s = "true" ∨ s = "false"

/-! ### Memorization bounds (`frontend/src/ir.rs`) -/

/-- Memory bound of a stream (`MemorizationBound`); the payload is a `u16`
in the source, modelled as ℕ. -/
inductive MemorizationBound where
  | Unbounded
  | Bounded (n : ℕ)
deriving DecidableEq, Repr

/-- Partial comparison (`impl PartialOrd for MemorizationBound`): bounded
values compare by payload, every bounded value is less than `Unbounded`, and
comparing `Unbounded` with itself gives no ordering. -/
def MemorizationBound.partial_cmp :
    MemorizationBound → MemorizationBound → Option Ordering
  | .Unbounded, .Unbounded => none
  | .Bounded _, .Unbounded => some .lt
  | .Unbounded, .Bounded _ => some .gt
  | .Bounded b1, .Bounded b2 => some (compare b1 b2)

/-! ### Parser characterizations -/

theorem rustParseU128_some_iff (s : String) (n : ℕ) :
    rustParseU128 s = some n ↔
      ∃ ds, (s.toList = ds ∨ s.toList = '+' :: ds) ∧ ds ≠ [] ∧ (∀ c ∈ ds, c.isDigit) ∧
        decDigitsVal ds < 2 ^ 128 ∧ n = decDigitsVal ds := by
  simp only [rustParseU128]
  by_cases hplus : s.toList.head? = some '+'
  · obtain ⟨t, ht⟩ : ∃ t, s.toList = '+' :: t := by
      cases hcs : s.toList with
      | nil => rw [hcs] at hplus; cases hplus
      | cons c r =>
        rw [hcs] at hplus
        simp only [List.head?_cons, Option.some_inj] at hplus
        exact ⟨r, by rw [hplus]⟩
    rw [if_pos hplus, ht, List.tail_cons]
    constructor
    · intro h
      split at h
      next hcond =>
        obtain ⟨hne, hdig, hlt⟩ := hcond
        injection h with hn
        exact ⟨t, Or.inr rfl, hne, fun c hc => List.all_eq_true.mp hdig c hc, hlt, hn.symm⟩
      next => cases h
    · rintro ⟨ds, hds, hne, hdig, hlt, hn⟩
      rcases hds with hds | hds
      · exfalso
        have hmem : '+' ∈ ds := by rw [← hds]; exact List.mem_cons_self _ _
        have hbad := hdig _ hmem
        exact absurd hbad (by decide)
      · injection hds with hhead hteq
        subst hteq
        rw [if_pos ⟨hne, List.all_eq_true.mpr hdig, hlt⟩, hn]
  · rw [if_neg hplus]
    constructor
    · intro h
      split at h
      next hcond =>
        obtain ⟨hne, hdig, hlt⟩ := hcond
        injection h with hn
        exact ⟨s.toList, Or.inl rfl, hne, fun c hc => List.all_eq_true.mp hdig c hc, hlt,
          hn.symm⟩
      next => cases h
    · rintro ⟨ds, hds, hne, hdig, hlt, hn⟩
      rcases hds with hds | hds
      · rw [hds, if_pos ⟨hne, List.all_eq_true.mpr hdig, hlt⟩, hn]
      · exfalso
        apply hplus
        rw [hds]
        rfl

theorem splitSign_nil : splitSign [] = (false, []) := rfl

theorem splitSign_minus (t : List Char) : splitSign ('-' :: t) = (true, t) := by
  simp [splitSign]

theorem splitSign_plus (t : List Char) : splitSign ('+' :: t) = (false, t) := by
  simp [splitSign]

theorem splitSign_other (c : Char) (t : List Char) (hm : c ≠ '-') (hp : c ≠ '+') :
    splitSign (c :: t) = (false, c :: t) := by
  simp [splitSign, hm, hp]

theorem rustParseI128_some_iff (s : String) (z : ℤ) :
    rustParseI128 s = some z ↔
      ∃ (neg : Bool) (ds : List Char),
        ((neg = false ∧ (s.toList = ds ∨ s.toList = '+' :: ds)) ∨
          (neg = true ∧ s.toList = '-' :: ds)) ∧
        ds ≠ [] ∧ (∀ c ∈ ds, c.isDigit) ∧
        -(2 ^ 127) ≤ signedVal neg ds ∧ signedVal neg ds < 2 ^ 127 ∧
        z = signedVal neg ds := by
  simp only [rustParseI128]
  cases hcs : s.toList with
  | nil =>
    rw [splitSign_nil]
    constructor
    · intro h
      simp at h
    · rintro ⟨neg, ds, hshape, hne, -⟩
      rcases hshape with ⟨-, hds | hds⟩ | ⟨-, hds⟩
      · exact absurd hds.symm hne
      · cases hds
      · cases hds
  | cons c rest =>
    by_cases hm : c = '-'
    · subst hm
      rw [splitSign_minus]
      constructor
      · intro h
        split at h
        next hcond =>
          obtain ⟨hne, hdig, hlo, hhi⟩ := hcond
          injection h with hz
          exact ⟨true, rest, Or.inr ⟨rfl, rfl⟩, hne,
            fun c hc => List.all_eq_true.mp hdig c hc, hlo, hhi, hz.symm⟩
        next => cases h
      · rintro ⟨neg, ds, hshape, hne, hdig, hlo, hhi, hz⟩
        rcases hshape with ⟨hnegf, hds | hds⟩ | ⟨hnegt, hds⟩
        · exfalso
          have hmem : '-' ∈ ds := by rw [← hds]; exact List.mem_cons_self _ _
          exact absurd (hdig _ hmem) (by decide)
        · exfalso
          injection hds with hhead htail
          exact absurd hhead (by decide)
        · subst hnegt
          injection hds with hhead hteq
          subst hteq
          rw [if_pos ⟨hne, List.all_eq_true.mpr hdig, hlo, hhi⟩, hz]
    · by_cases hp : c = '+'
      · subst hp
        rw [splitSign_plus]
        constructor
        · intro h
          split at h
          next hcond =>
            obtain ⟨hne, hdig, hlo, hhi⟩ := hcond
            injection h with hz
            exact ⟨false, rest, Or.inl ⟨rfl, Or.inr rfl⟩, hne,
              fun c hc => List.all_eq_true.mp hdig c hc, hlo, hhi, hz.symm⟩
          next => cases h
        · rintro ⟨neg, ds, hshape, hne, hdig, hlo, hhi, hz⟩
          rcases hshape with ⟨hnegf, hds | hds⟩ | ⟨hnegt, hds⟩
          · exfalso
            have hmem : '+' ∈ ds := by rw [← hds]; exact List.mem_cons_self _ _
            exact absurd (hdig _ hmem) (by decide)
          · subst hnegf
            injection hds with hhead hteq
            subst hteq
            rw [if_pos ⟨hne, List.all_eq_true.mpr hdig, hlo, hhi⟩, hz]
          · exfalso
            injection hds with hhead htail
            exact absurd hhead (by decide)
      · rw [splitSign_other c rest hm hp]
        constructor
        · intro h
          split at h
          next hcond =>
            obtain ⟨hne, hdig, hlo, hhi⟩ := hcond
            injection h with hz
            exact ⟨false, c :: rest, Or.inl ⟨rfl, Or.inl rfl⟩, hne,
              fun c hc => List.all_eq_true.mp hdig c hc, hlo, hhi, hz.symm⟩
          next => cases h
        · rintro ⟨neg, ds, hshape, hne, hdig, hlo, hhi, hz⟩
          rcases hshape with ⟨hnegf, hds | hds⟩ | ⟨hnegt, hds⟩
          · subst hnegf
            subst hds
            rw [if_pos ⟨hne, List.all_eq_true.mpr hdig, hlo, hhi⟩, hz]
          · exfalso
            injection hds with hhead htail
            exact hp hhead
          · exfalso
            injection hds with hhead htail
            exact hm hhead

/-- C4 (amended): behaviour of `Value::try_from` per declared type.  For
UInt, Int and Bool it never panics, returns None exactly on malformed
tokens, and returns the denoted value on well-formed ones.  For Float it
returns None on malformed tokens, panics precisely on tokens denoting NaN,
and otherwise returns Some of a non-NaN Float.  For String, Tuple and
Option types every call panics. -/
theorem try_from_parse_spec (s : String) :
    (∀ w : UIntTy,
      (∃ o, Value.try_from s (Ty.UInt w) = Except.ok o) ∧
      (Value.try_from s (Ty.UInt w) = Except.ok none ↔ ¬wellFormedUIntToken s) ∧
      (∀ ds : List Char, (s.toList = ds ∨ s.toList = '+' :: ds) → ds ≠ [] →
        (∀ c ∈ ds, c.isDigit) → decDigitsVal ds < 2 ^ 128 →
        Value.try_from s (Ty.UInt w) = Except.ok (some (Value.Unsigned (decDigitsVal ds))))) ∧
    (∀ w : IntTy,
      (∃ o, Value.try_from s (Ty.Int w) = Except.ok o) ∧
      (Value.try_from s (Ty.Int w) = Except.ok none ↔ ¬wellFormedIntToken s) ∧
      (∀ (neg : Bool) (ds : List Char),
        ((neg = false ∧ (s.toList = ds ∨ s.toList = '+' :: ds)) ∨
          (neg = true ∧ s.toList = '-' :: ds)) → ds ≠ [] → (∀ c ∈ ds, c.isDigit) →
        -(2 ^ 127) ≤ signedVal neg ds → signedVal neg ds < 2 ^ 127 →
        Value.try_from s (Ty.Int w) = Except.ok (some (Value.Signed (signedVal neg ds))))) ∧
    ((∃ o, Value.try_from s Ty.Bool = Except.ok o) ∧
      (Value.try_from s Ty.Bool = Except.ok none ↔ ¬wellFormedBoolToken s) ∧
      Value.try_from "true" Ty.Bool = Except.ok (some (Value.Bool true)) ∧
      Value.try_from "false" Ty.Bool = Except.ok (some (Value.Bool false))) ∧
    (∀ w : FloatTy,
      (Value.try_from s (Ty.Float w) = Except.ok none ↔ rustParseF64 s = none) ∧
      ((∃ e, Value.try_from s (Ty.Float w) = Except.error e) ↔
        rustParseF64 s = some FloatVal.nan) ∧
      (∀ v, Value.try_from s (Ty.Float w) = Except.ok (some v) →
        ∃ f, v = Value.Float f ∧ f ≠ FloatVal.nan)) ∧
    (Value.try_from s Ty.String = Except.error RtPanic.unimplementedCase ∧
      (∀ tys, Value.try_from s (Ty.Tuple tys) = Except.error RtPanic.unimplementedCase) ∧
      (∀ ty, Value.try_from s (Ty.Option ty) = Except.error RtPanic.unreachableCase)) := by
  refine ⟨?_, ?_, ?_, ?_, rfl, fun tys => rfl, fun ty => rfl⟩
  · intro w
    have hred : Value.try_from s (Ty.UInt w) =
        Except.ok ((rustParseU128 s).map Value.Unsigned) := rfl
    refine ⟨⟨_, hred⟩, ?_, ?_⟩
    · rw [hred]
      constructor
      · intro h hwf
        obtain ⟨ds, hds, hne, hdig, hlt⟩ := hwf
        have hp : rustParseU128 s = some (decDigitsVal ds) :=
          (rustParseU128_some_iff s _).mpr ⟨ds, hds, hne, hdig, hlt, rfl⟩
        rw [hp] at h
        simp at h
      · intro hnwf
        cases hpu : rustParseU128 s with
        | none => rfl
        | some n =>
          exfalso
          obtain ⟨ds, hds, hne, hdig, hlt, -⟩ := (rustParseU128_some_iff s n).mp hpu
          exact hnwf ⟨ds, hds, hne, hdig, hlt⟩
    · intro ds hds hne hdig hlt
      have hp : rustParseU128 s = some (decDigitsVal ds) :=
        (rustParseU128_some_iff s _).mpr ⟨ds, hds, hne, hdig, hlt, rfl⟩
      rw [hred, hp]
      rfl
  · intro w
    have hred : Value.try_from s (Ty.Int w) =
        Except.ok ((rustParseI128 s).map Value.Signed) := rfl
    refine ⟨⟨_, hred⟩, ?_, ?_⟩
    · rw [hred]
      constructor
      · intro h hwf
        obtain ⟨neg, ds, hshape, hne, hdig, hlo, hhi⟩ := hwf
        have hp : rustParseI128 s = some (signedVal neg ds) :=
          (rustParseI128_some_iff s _).mpr ⟨neg, ds, hshape, hne, hdig, hlo, hhi, rfl⟩
        rw [hp] at h
        simp at h
      · intro hnwf
        cases hpu : rustParseI128 s with
        | none => rfl
        | some n =>
          exfalso
          obtain ⟨neg, ds, hshape, hne, hdig, hlo, hhi, -⟩ :=
            (rustParseI128_some_iff s n).mp hpu
          exact hnwf ⟨neg, ds, hshape, hne, hdig, hlo, hhi⟩
    · intro neg ds hshape hne hdig hlo hhi
      have hp : rustParseI128 s = some (signedVal neg ds) :=
        (rustParseI128_some_iff s _).mpr ⟨neg, ds, hshape, hne, hdig, hlo, hhi, rfl⟩
      rw [hred, hp]
      rfl
  · have hred : Value.try_from s Ty.Bool =
        Except.ok ((rustParseBool s).map Value.Bool) := rfl
    refine ⟨⟨_, hred⟩, ?_, rfl, rfl⟩
    rw [hred]
    unfold rustParseBool wellFormedBoolToken
    by_cases h1 : s = "true"
    · simp [h1]
    · by_cases h2 : s = "false" <;> simp [h1, h2]
  · intro w
    cases hpf : rustParseF64 s with
    | none =>
      have hred : Value.try_from s (Ty.Float w) = Except.ok none := by
        simp [Value.try_from, hpf]
      refine ⟨?_, ?_, ?_⟩
      · simp [hred]
      · constructor
        · rintro ⟨e, he⟩
          rw [hred] at he
          cases he
        · intro h
          exact Option.noConfusion h
      · intro v hv
        rw [hred] at hv
        simp at hv
    | some f =>
      by_cases hf : f = FloatVal.nan
      · subst hf
        have hred : Value.try_from s (Ty.Float w) = Except.error RtPanic.unwrapNone := by
          simp [Value.try_from, hpf]
        refine ⟨?_, ?_, ?_⟩
        · rw [hred]
          simp
        · exact ⟨fun _ => rfl, fun _ => ⟨RtPanic.unwrapNone, hred⟩⟩
        · intro v hv
          rw [hred] at hv
          cases hv
      · have hred : Value.try_from s (Ty.Float w) = Except.ok (some (Value.Float f)) := by
          simp [Value.try_from, hpf, hf]
        refine ⟨?_, ?_, ?_⟩
        · rw [hred]
          simp
        · constructor
          · rintro ⟨e, he⟩
            rw [hred] at he
            cases he
          · intro h
            injection h with h
            exact absurd h hf
        · intro v hv
          rw [hred] at hv
          injection hv with hv
          injection hv with hv
          exact ⟨f, hv.symm, hf⟩

/-- C4 counterexample: parsing any text at the String type panics — the
source arm is `unimplemented!` — so `Value::try_from` does not merely return
None or Some for every text and declared type. -/
theorem try_from_string_panics :
    Value.try_from "foobar" Ty.String = Except.error RtPanic.unimplementedCase := rfl

theorem try_from_parse_spec_witness :
    Value.try_from "42" (Ty.UInt UIntTy.U8) = Except.ok (some (Value.Unsigned 42)) :=
  ((try_from_parse_spec "42").1 UIntTy.U8).2.2 ['4', '2'] (Or.inl rfl) (by decide) (by decide)
    (by decide)

/-- C5 counterexample: dividing `Unsigned 1` by `Unsigned 0` ends in the Rust
division-by-zero panic, not in a reported `ArithmeticFault` error. -/
theorem value_div_zero_is_panic :
    Value.div (Value.Unsigned 1) (Value.Unsigned 0) = Except.error RtPanic.divideByZero ∧
      RtPanic.divideByZero ≠ RtPanic.arithmeticFault :=
  ⟨rfl, by decide⟩

set_option maxRecDepth 8000 in
/-- C5 (amended): for matching integer tags, division by a value holding
zero fails by panicking — the failure is not an `ArithmeticFault` error —
and division by a non-zero value returns the truncated quotient under the
same tag, except `Signed(i128::MIN) / Signed(-1)`, which panics with an
overflow. -/
theorem value_div_spec :
    (∀ v1 v2 : ℕ, v2 = 0 →
      ∃ e, Value.div (Value.Unsigned v1) (Value.Unsigned v2) = Except.error e ∧
        e ≠ RtPanic.arithmeticFault) ∧
    (∀ v1 v2 : ℕ, v2 ≠ 0 →
      Value.div (Value.Unsigned v1) (Value.Unsigned v2) =
        Except.ok (Value.Unsigned (v1 / v2))) ∧
    (∀ v1 v2 : ℤ, v2 = 0 →
      ∃ e, Value.div (Value.Signed v1) (Value.Signed v2) = Except.error e ∧
        e ≠ RtPanic.arithmeticFault) ∧
    (∀ v1 v2 : ℤ, v2 ≠ 0 → ¬(v1 = -(2 ^ 127) ∧ v2 = -1) →
      Value.div (Value.Signed v1) (Value.Signed v2) =
        Except.ok (Value.Signed (Int.tdiv v1 v2))) ∧
    Value.div (Value.Signed (-(2 ^ 127))) (Value.Signed (-1)) =
      Except.error RtPanic.intOverflow := by
  refine ⟨?_, ?_, ?_, ?_, ?_⟩
  · intro v1 v2 h
    subst h
    exact ⟨RtPanic.divideByZero, by simp [Value.div], by decide⟩
  · intro v1 v2 h
    simp [Value.div, h]
  · intro v1 v2 h
    subst h
    exact ⟨RtPanic.divideByZero, by simp [Value.div], by decide⟩
  · intro v1 v2 h hno
    simp [Value.div, h, hno]
    intro h1 h2
    exact hno ⟨by rw [h1]; norm_num, h2⟩
  · rfl

theorem value_div_spec_witness :
    Value.div (Value.Unsigned 7) (Value.Unsigned 2) = Except.ok (Value.Unsigned 3) :=
  value_div_spec.2.1 7 2 (by decide)

/-- C6 counterexample: comparing a bounded value with `Unbounded` does yield
an ordering — `Bounded 1` is reported strictly less than `Unbounded` — so
`Unbounded` is not incomparable to bounded values. -/
theorem memorization_bound_bounded_lt_unbounded :
    MemorizationBound.partial_cmp (MemorizationBound.Bounded 1) MemorizationBound.Unbounded =
      some Ordering.lt := rfl

/-- C6 (amended): `partial_cmp` orders bounded values by their payloads,
places every bounded value strictly below `Unbounded`, and yields no
ordering only for `Unbounded` against `Unbounded`. -/
theorem memorization_bound_partial_cmp_spec :
    (∀ a b : ℕ,
      MemorizationBound.partial_cmp (MemorizationBound.Bounded a)
        (MemorizationBound.Bounded b) = some (compare a b) ∧
      (compare a b = Ordering.lt ↔ a < b)) ∧
    (∀ n : ℕ,
      MemorizationBound.partial_cmp (MemorizationBound.Bounded n)
        MemorizationBound.Unbounded = some Ordering.lt ∧
      MemorizationBound.partial_cmp MemorizationBound.Unbounded
        (MemorizationBound.Bounded n) = some Ordering.gt) ∧
    MemorizationBound.partial_cmp MemorizationBound.Unbounded MemorizationBound.Unbounded =
      none := by
  refine ⟨fun a b => ⟨rfl, ?_⟩, fun n => ⟨rfl, rfl⟩, rfl⟩
  exact Nat.compare_eq_lt

/-! ### Output handling (`rtlola/src/basics/io_handler.rs`) -/

/-- Modelled from the spec: verbosity levels (the `basics` module that
declares the enum is not among the provided sources).  Spec section 6.3:
emissions at a level at most the configured one are printed, so `Silent` is
the bottom and `Debug` the top of the order. -/
inductive Verbosity where
  | Silent
  | Progress
  | WarningsOnly
  | Triggers
  | Outputs
  | Debug
deriving DecidableEq, Repr

/-- Numeric rank of a verbosity level, inducing the derived order. -/
def Verbosity.rank : Verbosity → ℕ
  | .Silent => 0
  | .Progress => 1
  | .WarningsOnly => 2
  | .Triggers => 3
  | .Outputs => 4
  | .Debug => 5

instance : LE Verbosity := ⟨fun a b => a.rank ≤ b.rank⟩

instance (a b : Verbosity) : Decidable (a ≤ b) :=
  inferInstanceAs (Decidable (a.rank ≤ b.rank))

/-- Emission gate (`OutputHandler::emit`).  The message closure is modelled
as a state transformer threading the count of its own invocations, so that
the laziness contract — a suppressed message is never computed — is
observable in the result. -/
def OutputHandler.emit (verbosity kind : Verbosity) (msg : ℕ → String × ℕ) :
    ℕ → Option String × ℕ :=
  fun calls =>
    if kind ≤ verbosity then
      let r := msg calls
      (some r.1, r.2)
    else (none, calls)

/-- Instrumentation of a message closure: each invocation bumps the counter. -/
def instrument (f : Unit → String) : ℕ → String × ℕ :=
  fun calls => (f (), calls + 1)

/-- C7: `OutputHandler::emit` prints the message exactly when the kind is at
most the configured verbosity, and when it suppresses the message the
closure is never invoked. -/
theorem emit_prints_iff_le (verbosity kind : Verbosity) (f : Unit → String) :
    ((OutputHandler.emit verbosity kind (instrument f) 0).1.isSome ↔ kind ≤ verbosity) ∧
    (¬kind ≤ verbosity → (OutputHandler.emit verbosity kind (instrument f) 0).2 = 0) ∧
    (kind ≤ verbosity →
      OutputHandler.emit verbosity kind (instrument f) 0 = (some (f ()), 1)) := by
  by_cases h : kind ≤ verbosity
  · simp [OutputHandler.emit, instrument, h]
  · simp [OutputHandler.emit, instrument, h]

theorem emit_prints_iff_le_witness :
    (OutputHandler.emit Verbosity.Silent Verbosity.Debug
        (instrument (fun _ => "msg")) 0).2 = 0 ∧
    OutputHandler.emit Verbosity.Debug Verbosity.Triggers
        (instrument (fun _ => "msg")) 0 = (some "msg", 1) :=
  ⟨(emit_prints_iff_le Verbosity.Silent Verbosity.Debug (fun _ => "msg")).2.1 (by decide),
    (emit_prints_iff_le Verbosity.Debug Verbosity.Triggers (fun _ => "msg")).2.2 (by decide)⟩

/-- Statistics counters (`StatisticsData`); `start` is the starting
`SystemTime` in nanoseconds, the counters are `AtomicU64` values. -/
structure StatisticsData where
  start : ℕ
  num_events : ℕ
  num_triggers : ℕ
deriving DecidableEq, Repr

/-- Modelled from the Rust standard library: `AtomicU64::fetch_add` returns
the previous value and stores the sum, wrapping around the 64-bit domain. -/
def fetch_add (counter delta : ℕ) : ℕ × ℕ :=
  (counter, (counter + delta) % 2 ^ 64)

/-- `Statistics::trigger`: adds one to `num_events` — not to
`num_triggers`. -/
def StatisticsData.trigger (s : StatisticsData) : StatisticsData :=
  { s with num_events := (fetch_add s.num_events 1).2 }

/-- `Statistics::new_event`: adds one to `num_events`. -/
def StatisticsData.new_event (s : StatisticsData) : StatisticsData :=
  { s with num_events := (fetch_add s.num_events 1).2 }

/-- C9: every call of `Statistics::trigger` increments the `num_events`
counter by one (wrapping at 2^64 like the underlying atomic) and leaves
`num_triggers` unchanged. -/
theorem statistics_trigger_effect (s : StatisticsData) :
    (s.trigger).num_triggers = s.num_triggers ∧
    (s.trigger).num_events = (s.num_events + 1) % 2 ^ 64 ∧
    (s.num_events + 1 < 2 ^ 64 → (s.trigger).num_events = s.num_events + 1) ∧
    (s.trigger).start = s.start := by
  refine ⟨rfl, rfl, ?_, rfl⟩
  intro h
  exact Nat.mod_eq_of_lt h

theorem statistics_trigger_effect_witness :
    (StatisticsData.trigger { start := 0, num_events := 5, num_triggers := 2 }).num_events =
      6 :=
  (statistics_trigger_effect { start := 0, num_events := 5, num_triggers := 2 }).2.2.1
    (by norm_num)

/-- Mapping between CSV columns and input streams (`ColumnMapping`). -/
structure ColumnMapping where
  str2col : List ℕ
  col2str : List (Option ℕ)
  time_ix : Option ℕ
deriving DecidableEq, Repr

/-- Names recognised as the timestamp column
(`name == "time" || name == "ts" || name == "timestamp"`). -/
def isTimeName (name : String) : Bool :=
  name == "time" || name == "ts" || name == "timestamp"

/-- Construction of the column mapping from the CSV header
(`ColumnMapping::from_header`).  A stream name missing from the header
panics in the source; here that is the `none` result. -/
def ColumnMapping.from_header (names header : List String) : Option ColumnMapping := do
  let str2col ← names.mapM (fun name => header.findIdx? (fun entry => entry == name))
  let col2str := (str2col.enum).foldl (fun acc p => acc.set p.2 (some p.1))
    (List.replicate header.length none)
  pure { str2col := str2col, col2str := col2str,
         time_ix := header.findIdx? isTimeName }

theorem mapM_option_forall2 {α β : Type} (f : α → Option β) (l : List α) (r : List β) :
    l.mapM f = some r ↔ List.Forall₂ (fun a b => f a = some b) l r := by
  induction l generalizing r with
  | nil =>
    constructor
    · intro h
      cases h
      exact List.Forall₂.nil
    · intro h
      cases h
      rfl
  | cons a l ih =>
    rw [List.mapM_cons]
    constructor
    · intro h
      cases hfa : f a with
      | none =>
        rw [hfa] at h
        cases h
      | some b =>
        rw [hfa] at h
        cases hml : l.mapM f with
        | none =>
          rw [hml] at h
          cases h
        | some bs =>
          rw [hml] at h
          cases h
          exact List.Forall₂.cons hfa ((ih bs).mp hml)
    · intro h
      cases h with
      | cons hab htail =>
        rw [hab, (ih _).mpr htail]
        rfl

theorem getD_replicate_none (n j : ℕ) :
    (List.replicate n (none : Option ℕ)).getD j none = none := by
  rw [List.getD_eq_getElem?_getD, List.getElem?_replicate]
  by_cases h : j < n <;> simp [h]

theorem mem_enum_iff_getD (l : List ℕ) (s c : ℕ) :
    (s, c) ∈ l.enum ↔ s < l.length ∧ l.getD s 0 = c := by
  constructor
  · intro h
    obtain ⟨hlt, heq⟩ := List.mem_enum h
    exact ⟨hlt, by rw [List.getD_eq_getElem _ _ hlt, ← heq]⟩
  · rintro ⟨hlt, heq⟩
    have hlen : s < l.enum.length := by rw [List.enum_length]; exact hlt
    have hev : l.enum[s] = (s, l[s]) := List.getElem_enum l s hlen
    rw [List.getD_eq_getElem _ _ hlt] at heq
    rw [← heq, ← hev]
    exact List.getElem_mem hlen

theorem findIdx?_some_spec {α : Type} (p : α → Bool) (l : List α) (i : ℕ) (d : α)
    (h : l.findIdx? p = some i) :
    i < l.length ∧ p (l.getD i d) = true ∧ ∀ j, j < i → p (l.getD j d) = false := by
  obtain ⟨hlt, hidx⟩ := List.findIdx?_eq_some_iff_findIdx_eq.mp h
  subst hidx
  refine ⟨hlt, ?_, ?_⟩
  · rw [List.getD_eq_getElem _ _ hlt]
    exact List.findIdx_getElem
  · intro j hj
    have hjlt : j < l.length := lt_trans hj hlt
    rw [List.getD_eq_getElem _ _ hjlt]
    exact List.not_of_lt_findIdx hj

theorem setFold_getD (ps : List (ℕ × ℕ)) (init : List (Option ℕ)) (c s : ℕ)
    (hinj : ∀ p ∈ ps, ∀ q ∈ ps, p.2 = q.2 → p = q)
    (hbnd : ∀ p ∈ ps, p.2 < init.length) :
    (ps.foldl (fun acc p => acc.set p.2 (some p.1)) init).getD c none = some s ↔
      ((s, c) ∈ ps ∨ (init.getD c none = some s ∧ ∀ p ∈ ps, p.2 ≠ c)) := by
  induction ps generalizing init with
  | nil => simp
  | cons p ps ih =>
    rw [List.foldl_cons]
    have hinj2 : ∀ a ∈ ps, ∀ b ∈ ps, a.2 = b.2 → a = b := fun a ha b hb =>
      hinj a (List.mem_cons_of_mem _ ha) b (List.mem_cons_of_mem _ hb)
    have hbnd2 : ∀ a ∈ ps, a.2 < (init.set p.2 (some p.1)).length := by
      intro a ha
      rw [List.length_set]
      exact hbnd a (List.mem_cons_of_mem _ ha)
    rw [ih _ hinj2 hbnd2, getD_set_eq_ite]
    have hpbnd : p.2 < init.length := hbnd p (List.mem_cons_self _ _)
    by_cases hc : p.2 = c
    · rw [if_pos ⟨hc, hpbnd⟩]
      constructor
      · rintro (h | ⟨hsome, -⟩)
        · exact Or.inl (List.mem_cons_of_mem _ h)
        · injection hsome with hsome
          left
          have hps : (s, c) = p := Prod.ext hsome.symm hc.symm
          rw [hps]
          exact List.mem_cons_self _ _
      · rintro (h | ⟨-, hall⟩)
        · rcases List.mem_cons.mp h with heq | hmem
          · by_cases hin : (s, c) ∈ ps
            · exact Or.inl hin
            · right
              constructor
              · rw [← heq]
              · intro q hq hq2
                apply hin
                have hqp : q = p :=
                  hinj2 q hq q hq |> fun _ =>
                    hinj q (List.mem_cons_of_mem _ hq) p (List.mem_cons_self _ _)
                      (by rw [hq2, hc])
                have h2 : (s, c) = q := heq.trans hqp.symm
                rw [h2]
                exact hq
          · exact Or.inl hmem
        · exact absurd hc (hall p (List.mem_cons_self _ _))
    · rw [if_neg (fun hcc => hc hcc.1)]
      constructor
      · rintro (h | ⟨hival, hall⟩)
        · exact Or.inl (List.mem_cons_of_mem _ h)
        · right
          refine ⟨hival, fun q hq => ?_⟩
          rcases List.mem_cons.mp hq with rfl | hq2
          · exact hc
          · exact hall q hq2
      · rintro (h | ⟨hival, hall⟩)
        · rcases List.mem_cons.mp h with heq | hmem
          · exfalso
            apply hc
            rw [← heq]
          · exact Or.inl hmem
        · exact Or.inr ⟨hival, fun q hq => hall q (List.mem_cons_of_mem _ hq)⟩

theorem from_header_components (names header : List String) (cm : ColumnMapping)
    (h : ColumnMapping.from_header names header = some cm) :
    ∃ str2col,
      names.mapM (fun name => header.findIdx? (fun entry => entry == name)) = some str2col ∧
      cm = { str2col := str2col,
             col2str := (str2col.enum).foldl (fun acc p => acc.set p.2 (some p.1))
               (List.replicate header.length none),
             time_ix := header.findIdx? isTimeName } := by
  unfold ColumnMapping.from_header at h
  cases hm : names.mapM (fun name => header.findIdx? (fun entry => entry == name)) with
  | none =>
    rw [hm] at h
    cases h
  | some sc =>
    rw [hm] at h
    cases h
    exact ⟨sc, rfl, rfl⟩

/-- C8: the timestamp column index of `ColumnMapping::from_header` is the
position of the first header entry whose name is exactly `time`, `ts` or
`timestamp`, and `None` when no such entry exists. -/
theorem from_header_time_ix (names header : List String) (cm : ColumnMapping)
    (h : ColumnMapping.from_header names header = some cm) :
    (∀ i, cm.time_ix = some i →
      i < header.length ∧ isTimeName (header.getD i "") = true ∧
        ∀ j, j < i → isTimeName (header.getD j "") = false) ∧
    (cm.time_ix = none ↔ ∀ name ∈ header, isTimeName name = false) := by
  obtain ⟨sc, hsc, hcm⟩ := from_header_components names header cm h
  subst hcm
  refine ⟨?_, List.findIdx?_eq_none_iff⟩
  intro i hi
  exact findIdx?_some_spec isTimeName header i "" hi

theorem from_header_time_ix_witness :
    1 < (["a", "ts"] : List String).length ∧
      isTimeName ((["a", "ts"] : List String).getD 1 "") = true ∧
      isTimeName ((["a", "ts"] : List String).getD 0 "") = false :=
  have h := from_header_time_ix ["a"] ["a", "ts"]
    { str2col := [0], col2str := [some 0, none], time_ix := some 1 } rfl
  ⟨(h.1 1 rfl).1, (h.1 1 rfl).2.1, (h.1 1 rfl).2.2 0 (by decide)⟩

/-- C10: when the header contains an entry for every declared stream name
(so that `from_header` succeeds) and the declared names are distinct, the
two maps are mutually inverse: following `str2col` and then `col2str` leads
back to the stream index, and every stream index recorded in `col2str` maps
back to its column through `str2col`. -/
theorem from_header_maps_inverse (names header : List String) (cm : ColumnMapping)
    (hnd : names.Nodup) (h : ColumnMapping.from_header names header = some cm) :
    (∀ s, s < names.length → cm.col2str.getD (cm.str2col.getD s 0) none = some s) ∧
    (∀ c s, cm.col2str.getD c none = some s → cm.str2col.getD s 0 = c) := by
  obtain ⟨sc, hsc, hcm⟩ := from_header_components names header cm h
  subst hcm
  have hf2 := (mapM_option_forall2 _ names sc).mp hsc
  have hlen : names.length = sc.length := hf2.length_eq
  obtain ⟨-, hget⟩ := List.forall₂_iff_get.mp hf2
  have hcol : ∀ (s : ℕ), s < sc.length →
      sc.getD s 0 < header.length ∧ header.getD (sc.getD s 0) "" = names.getD s "" := by
    intro s hs
    have hsn : s < names.length := by rw [hlen]; exact hs
    have hfi := hget s hsn hs
    have hspec := findIdx?_some_spec _ header (sc.get ⟨s, hs⟩) "" hfi
    have hgd : sc.getD s 0 = sc.get ⟨s, hs⟩ := by
      rw [List.getD_eq_getElem _ _ hs]
      rfl
    refine ⟨by rw [hgd]; exact hspec.1, ?_⟩
    have hbeq := hspec.2.1
    rw [beq_iff_eq] at hbeq
    rw [hgd, hbeq, List.getD_eq_getElem _ _ hsn]
    rfl
  have hinj : ∀ p ∈ sc.enum, ∀ q ∈ sc.enum, p.2 = q.2 → p = q := by
    rintro ⟨s1, c1⟩ hp ⟨s2, c2⟩ hq hpq
    simp only at hpq
    subst hpq
    obtain ⟨hs1, hc1⟩ := (mem_enum_iff_getD sc s1 c1).mp hp
    obtain ⟨hs2, hc2⟩ := (mem_enum_iff_getD sc s2 c1).mp hq
    have he1 := (hcol s1 hs1).2
    have he2 := (hcol s2 hs2).2
    rw [hc1] at he1
    rw [hc2] at he2
    have hnames : names.getD s1 "" = names.getD s2 "" := by rw [← he1, ← he2]
    have hs1n : s1 < names.length := by rw [hlen]; exact hs1
    have hs2n : s2 < names.length := by rw [hlen]; exact hs2
    rw [List.getD_eq_getElem _ _ hs1n, List.getD_eq_getElem _ _ hs2n] at hnames
    have : s1 = s2 := (hnd.getElem_inj_iff).mp hnames
    rw [this]
  have hbnd : ∀ p ∈ sc.enum, p.2 < (List.replicate header.length (none : Option ℕ)).length := by
    rintro ⟨s1, c1⟩ hp
    rw [List.length_replicate]
    obtain ⟨hs1, hc1⟩ := (mem_enum_iff_getD sc s1 c1).mp hp
    have := (hcol s1 hs1).1
    rw [hc1] at this
    exact this
  constructor
  · intro s hs
    have hssc : s < sc.length := by rw [← hlen]; exact hs
    rw [setFold_getD sc.enum _ _ _ hinj hbnd]
    exact Or.inl ((mem_enum_iff_getD sc s (sc.getD s 0)).mpr ⟨hssc, rfl⟩)
  · intro c s hcs
    rw [setFold_getD sc.enum _ _ _ hinj hbnd] at hcs
    rcases hcs with hmem | ⟨hrep, -⟩
    · exact ((mem_enum_iff_getD sc s c).mp hmem).2
    · rw [getD_replicate_none] at hrep
      cases hrep

theorem from_header_maps_inverse_witness :
    ([some 1, some 0] : List (Option ℕ)).getD (([1, 0] : List ℕ).getD 0 0) none = some 0 :=
  (from_header_maps_inverse ["a", "b"] ["b", "a"]
    { str2col := [1, 0], col2str := [some 1, some 0], time_ix := none }
    (by decide) rfl).1 0 (by decide)
